import Mathlib

/-
Verification of the core of game_of_life.c: the configuration-file scanner
(checkConfigFile), the board loader (fillBoard) and the generation update
(updateBoard).  The file input is modelled as the list of the file's bytes
(as characters); fgetc returning EOF at the end of the stream is modelled by
the end of the list.  The program stores fgetc's int result into a plain
char, so on the usual signed-char platforms the byte 255 has the same char
value as EOF; eofChar below is that value and the scanner treats it exactly
as the C code does.  Machine-width effects that matter are kept explicit:
board_width/board_height are uint8_t (mod 256), the neighbour offsets are
added to size_t loop indices (mod 2^64).
-/

set_option maxHeartbeats 1000000

namespace Gol

/-- Char value with code 255: the value `(char)EOF` takes on signed-char
platforms, hence also the value a byte 255 read by fgetc compares equal to. -/
def eofChar : Char := Char.ofNat 255

/-- Error kinds, one per distinct failure message of the C program, plus the
spec's EmptyInput kind.  Modelled from the spec: the spec names an
`EmptyInput` error (section 4.1), which has no counterpart message in the
code; it is included so that statements about it can be written. -/
inductive ConfigError where
  | fileNotFound
  | emptyInput
  | inconsistentColumnCount
  | invalidCharacter (c : Char)
  deriving DecidableEq

/-- State of checkConfigFile's scanning loop:
last_column_count, current_column_count, row_count. -/
structure ScanSt where
  last : Nat
  ccc : Nat
  row : Nat
  deriving DecidableEq

/-- Outcome of one iteration of the scanning loop body. -/
inductive ScanMove where
  | next (st : ScanSt)
  | stop (row lcc : Nat)
  | fail (e : ConfigError)
  deriving DecidableEq

/-- One iteration of checkConfigFile's while loop on the character read by
fgetc.  current_column_count is incremented first; then the branches: newline
(set last_column_count if unset, check consistency, bump row_count), the
EOF-valued char (check the final line, break), invalid character, or a plain
marker character. -/
def scanStep (st : ScanSt) (c : Char) : ScanMove :=
  let ccc := st.ccc + 1
  if c = '\n' then
    let lcc := if st.last = 0 then ccc else st.last
    if lcc ≠ ccc then .fail .inconsistentColumnCount
    else .next ⟨lcc, 0, st.row + 1⟩
  else if c = eofChar then
    if st.last ≠ ccc then .fail .inconsistentColumnCount
    else .stop st.row st.last
  else if c ≠ '.' ∧ c ≠ '#' then .fail (.invalidCharacter c)
  else .next ⟨st.last, ccc, st.row⟩

/-- checkConfigFile's while loop over the remaining input.  When the stream
is exhausted fgetc returns EOF, which runs the same final-line check as a
byte 255 would (current_column_count is incremented for the EOF read too).
On success it returns (row_count, last_column_count). -/
def scanList : List Char → ScanSt → Except ConfigError (Nat × Nat)
  | [], st =>
      if st.last ≠ st.ccc + 1 then .error .inconsistentColumnCount
      else .ok (st.row, st.last)
  | c :: rest, st =>
      match scanStep st c with
      | .fail e => .error e
      | .stop row lcc => .ok (row, lcc)
      | .next st' => scanList rest st'

/-- checkConfigFile on the file's bytes (the fopen step is external I/O and
is not modelled).  On success the board dimensions are stored into uint8_t:
board_height = row_count + 1 and board_width = last_column_count - 1, both
truncated mod 256.  Returns (board_height, board_width). -/
def checkConfigFile (input : List Char) : Except ConfigError (Nat × Nat) :=
  match scanList input ⟨0, 0, 0⟩ with
  | .error e => .error e
  | .ok p => .ok ((p.1 + 1) % 256, (p.2 - 1) % 256)

/-- A cell of the board: the current value and the value being prepared for
the next generation. -/
structure Cell where
  current_value : Char
  new_value : Char
  deriving DecidableEq

/-- The board: a row-major grid of cells. -/
abbrev Board := List (List Cell)

/-- One fgetc on the modelled stream: the next byte and the rest, or the
EOF-valued char once the stream is exhausted. -/
def readCell : List Char → Char × List Char
  | [] => (eofChar, [])
  | c :: rest => (c, rest)

/-- Inner loop of fillBoard: read board_width characters into cells of one
row, setting current_value and new_value to the character read. -/
def fillRow : Nat → List Char → List Cell × List Char
  | 0, s => ([], s)
  | n + 1, s =>
      let p := readCell s
      let q := fillRow n p.2
      (⟨p.1, p.1⟩ :: q.1, q.2)

/-- Outer loop of fillBoard: for each row read board_width cell characters
and then one extra character (the line terminator position). -/
def fillBoardAux : Nat → Nat → List Char → Board
  | 0, _, _ => []
  | hh + 1, w, s =>
      let p := fillRow w s
      let q := readCell p.2
      p.1 :: fillBoardAux hh w q.2

/-- fillBoard: rewinds to the start of the file (hence reads `input` from its
beginning) and fills a board_height x board_width grid. Allocation failure is
not modelled. -/
def fillBoard (input : List Char) (h w : Nat) : Board := fillBoardAux h w input

/-- 2^64, the modulus of size_t arithmetic. -/
def twoPow64 : Int := 18446744073709551616

/-- `row + offset` as computed in C: the int offset is converted to size_t
and added mod 2^64. -/
def wrap64 (a : Nat) (d : Int) : Nat := (((a : Int) + d) % twoPow64).toNat

/-- The 8 neighbour offsets, exactly as in updateBoard. -/
def neighbourOffsets : List (Int × Int) :=
  [(-1, -1), (-1, 0), (-1, 1), (0, -1), (0, 1), (1, -1), (1, 0), (1, 1)]

/-- Value used for an out-of-range access in the model; all statements keep
indices in range, so it never influences a theorem. -/
def defaultCell : Cell := ⟨'.', '.'⟩

/-- board[r], as read. -/
def rowAt (b : Board) (r : Nat) : List Cell := b.getD r []

/-- board[r][c], as read. -/
def cellAt (b : Board) (r c : Nat) : Cell := (rowAt b r).getD c defaultCell

/-- board[r][c].current_value. -/
def currentAt (b : Board) (r c : Nat) : Char := (cellAt b r c).current_value

/-- board[r][c].new_value. -/
def newAt (b : Board) (r c : Nat) : Char := (cellAt b r c).new_value

/-- The neighbour-counting loop of updateBoard: for each of the 8 offsets,
skip it when the size_t sums row+dy or column+dx reach board_height or
board_width (out-of-range, including the wrap-around of negative offsets),
otherwise count the neighbour whose current_value is '#'. -/
def neighbourCount (b : Board) (h w r c : Nat) : Nat :=
  neighbourOffsets.foldl
    (fun n d =>
      if h ≤ wrap64 r d.1 ∨ w ≤ wrap64 c d.2 then n
      else if currentAt b (wrap64 r d.1) (wrap64 c d.2) = '#' then n + 1 else n)
    0

/-- The rule applied by updateBoard to one cell: live with 2 or 3 live
neighbours survives, dead with exactly 3 becomes alive, otherwise dead. -/
def nextValue (cur : Char) (n : Nat) : Char :=
  if cur = '#' ∧ (n = 2 ∨ n = 3) then '#'
  else if cur = '.' ∧ n = 3 then '#'
  else '.'

/-- board[r][c].new_value = v, leaving current_value in place. -/
def setNewValue (b : Board) (r c : Nat) (v : Char) : Board :=
  b.set r ((rowAt b r).set c ⟨(cellAt b r c).current_value, v⟩)

/-- board[r][c].current_value = v, leaving new_value in place. -/
def setCurrentValue (b : Board) (r c : Nat) (v : Char) : Board :=
  b.set r ((rowAt b r).set c ⟨v, (cellAt b r c).new_value⟩)

/-- Body of updateBoard's first double loop at one position: count the
neighbours and store the cell's next value into new_value. -/
def computeCell (b : Board) (h w r c : Nat) : Board :=
  setNewValue b r c (nextValue (currentAt b r c) (neighbourCount b h w r c))

/-- First double loop of updateBoard: compute every cell's new_value, row by
row, column by column, over the board being mutated. -/
def phase1 (b : Board) (h w : Nat) : Board :=
  (List.range h).foldl
    (fun acc r => (List.range w).foldl (fun a2 c => computeCell a2 h w r c) acc) b

/-- Second double loop of updateBoard ("Persist values"): copy every cell's
new_value into current_value. -/
def phase2 (b : Board) (h w : Nat) : Board :=
  (List.range h).foldl
    (fun acc r =>
      (List.range w).foldl (fun a2 c => setCurrentValue a2 r c (newAt a2 r c)) acc) b

/-- updateBoard: compute all new values, then persist them. -/
def updateBoard (b : Board) (h w : Nat) : Board := phase2 (phase1 b h w) h w

/-- The standard Game of Life rule as the spec states it, on an abstract
alive/dead state: used to compare updateBoard against the spec. -/
def specNext (alive : Bool) (n : Nat) : Bool :=
  (alive && (n == 2 || n == 3)) || (!alive && n == 3)

/-- Spec-side test for one offset: the resulting position lies inside
[0, h) x [0, w) and holds a live cell. -/
def liveCellPred (b : Board) (h w r c : Nat) (d : Int × Int) : Bool :=
  decide (0 ≤ (r : Int) + d.1) && decide ((r : Int) + d.1 < (h : Int)) &&
  decide (0 ≤ (c : Int) + d.2) && decide ((c : Int) + d.2 < (w : Int)) &&
  decide (currentAt b ((r : Int) + d.1).toNat ((c : Int) + d.2).toNat = '#')

/-- Spec-side neighbour count: among the 8 offsets, those whose resulting
position lies inside [0, h) x [0, w) and holds a live cell. -/
def liveNeighbours (b : Board) (h w r c : Nat) : Nat :=
  neighbourOffsets.countP (liveCellPred b h w r c)

/-- The board has exactly h rows of w cells each. -/
def Shaped (b : Board) (h w : Nat) : Prop :=
  b.length = h ∧ ∀ row ∈ b, row.length = w

/-- Every cell's current value is one of the two markers. -/
def ValidBoard (b : Board) : Prop :=
  ∀ row ∈ b, ∀ cell ∈ row, cell.current_value = '.' ∨ cell.current_value = '#'

/-- A line of the configuration file consisting only of marker characters. -/
def MarkerLine (l : List Char) : Prop := ∀ c ∈ l, c = '.' ∨ c = '#'

/-- The byte sequence of a configuration whose lines are `rs`: every line but
the last is followed by a newline, the last line is unterminated. -/
def encodeLines : List (List Char) → List Char
  | [] => []
  | [l] => l
  | l :: rest => l ++ '\n' :: encodeLines rest

/-- A board built directly from rows of characters, each cell having its
current and new value equal to the character (as fillBoard produces). -/
def ofRows (rs : List (List Char)) : Board :=
  rs.map (fun row => row.map (fun ch => ⟨ch, ch⟩))

/-- The grid of current values of a board. -/
def currentsOf (b : Board) : List (List Char) :=
  b.map (fun row => row.map Cell.current_value)

/-- Row-major list of all cell positions of an h x w board, in the order the
update loops visit them. -/
def cellIndices (h w : Nat) : List (Nat × Nat) :=
  (List.range h).flatMap (fun r => (List.range w).map (fun c => (r, c)))

/-- phase1's loop body as a function of a position pair. -/
def stepCompute (h w : Nat) (a : Board) (p : Nat × Nat) : Board :=
  computeCell a h w p.1 p.2

/-- phase2's loop body as a function of a position pair. -/
def stepCommit (a : Board) (p : Nat × Nat) : Board :=
  setCurrentValue a p.1 p.2 (newAt a p.1 p.2)

/-- The scanning loop run over a segment of the input that it traverses
without failing and without reaching an EOF-valued byte. -/
def scanSeg : List Char → ScanSt → Option ScanSt
  | [], st => some st
  | c :: rest, st =>
      match scanStep st c with
      | .next st' => scanSeg rest st'
      | _ => none

/-- The scanner's initial state. -/
def startSt : ScanSt := ⟨0, 0, 0⟩

end Gol

namespace Gol

theorem getD_set_self {α : Type} (l : List α) (n : Nat) (a d : α) (hn : n < l.length) :
    (l.set n a).getD n d = a := by
  induction l generalizing n with
  | nil => simp at hn
  | cons x xs ih =>
    cases n with
    | zero => simp
    | succ m => simpa using ih m (by simpa using hn)

theorem getD_set_ne {α : Type} (l : List α) (n m : Nat) (a d : α) (hnm : n ≠ m) :
    (l.set n a).getD m d = l.getD m d := by
  induction l generalizing n m with
  | nil => simp
  | cons x xs ih =>
    cases n with
    | zero =>
      cases m with
      | zero => exact absurd rfl hnm
      | succ k => simp
    | succ j =>
      cases m with
      | zero => simp
      | succ k => simpa using ih j k (fun h => hnm (by rw [h]))

theorem set_oob {α : Type} (l : List α) (n : Nat) (a : α) (hn : l.length ≤ n) :
    l.set n a = l := by
  induction l generalizing n with
  | nil => simp
  | cons x xs ih =>
    cases n with
    | zero => simp at hn
    | succ m => simpa using ih m (by simpa using hn)

theorem getD_append_lt {α : Type} (a b : List α) (n : Nat) (d : α) (h : n < a.length) :
    (a ++ b).getD n d = a.getD n d := by
  induction a generalizing n with
  | nil => simp at h
  | cons x xs ih =>
    cases n with
    | zero => simp
    | succ m => simpa using ih m (by simpa using h)

theorem getD_append_ge {α : Type} (a b : List α) (n : Nat) (d : α) (h : a.length ≤ n) :
    (a ++ b).getD n d = b.getD (n - a.length) d := by
  induction a generalizing n with
  | nil => simp
  | cons x xs ih =>
    cases n with
    | zero => simp at h
    | succ m => simpa using ih m (by simpa using h)

theorem getD_default_irrel {α : Type} (l : List α) (n : Nat) (d d' : α) (h : n < l.length) :
    l.getD n d = l.getD n d' := by
  induction l generalizing n with
  | nil => simp at h
  | cons x xs ih =>
    cases n with
    | zero => simp
    | succ m => simpa using ih m (by simpa using h)

theorem getD_mem {α : Type} (l : List α) (n : Nat) (d : α) (h : n < l.length) :
    l.getD n d ∈ l := by
  induction l generalizing n with
  | nil => simp at h
  | cons x xs ih =>
    cases n with
    | zero => simp
    | succ m =>
      rw [List.getD_cons_succ]
      exact List.mem_cons.mpr (.inr (ih m (by simpa using h)))

theorem length_set_my {α : Type} (l : List α) (n : Nat) (a : α) :
    (l.set n a).length = l.length := List.length_set l n a

theorem mem_set_my {α : Type} (l : List α) (n : Nat) (a x : α) (hx : x ∈ l.set n a) :
    x ∈ l ∨ x = a := by
  induction l generalizing n with
  | nil => simp at hx
  | cons y ys ih =>
    cases n with
    | zero =>
      rcases List.mem_cons.mp hx with h | h
      · exact .inr h
      · exact .inl (List.mem_cons.mpr (.inr h))
    | succ m =>
      rcases List.mem_cons.mp hx with h | h
      · exact .inl (List.mem_cons.mpr (.inl h))
      · rcases ih m h with h2 | h2
        · exact .inl (List.mem_cons.mpr (.inr h2))
        · exact .inr h2

theorem getD_drop_my {α : Type} (l : List α) (n m : Nat) (d : α) :
    (l.drop n).getD m d = l.getD (n + m) d := by
  induction l generalizing n with
  | nil => simp
  | cons x xs ih =>
    cases n with
    | zero => simp
    | succ k =>
      have hkm : k + 1 + m = k + m + 1 := by omega
      rw [List.drop_succ_cons, hkm, List.getD_cons_succ]
      exact ih k

theorem foldl_count {α : Type} (p : α → Bool) (l : List α) :
    ∀ n : Nat, l.foldl (fun n a => if p a then n + 1 else n) n = n + l.countP p := by
  induction l with
  | nil => simp
  | cons x xs ih =>
    intro n
    by_cases hx : p x
    · simp [hx, ih, List.countP_cons]
      omega
    · simp [hx, ih, List.countP_cons]

theorem foldl_congr_mem {α β : Type} (l : List α) (f g : β → α → β) :
    ∀ init : β, (∀ b a, a ∈ l → f b a = g b a) → l.foldl f init = l.foldl g init := by
  induction l with
  | nil => simp
  | cons x xs ih =>
    intro init h
    simp only [List.foldl_cons]
    rw [h init x (by simp)]
    exact ih _ (fun b a ha => h b a (by simp [ha]))

theorem countP_mono_mem {α : Type} (l : List α) (p q : α → Bool)
    (h : ∀ a ∈ l, p a = true → q a = true) : l.countP p ≤ l.countP q := by
  induction l with
  | nil => simp
  | cons x xs ih =>
    have hx := h x (by simp)
    have ihx := ih (fun a ha hp => h a (by simp [ha]) hp)
    by_cases hp : p x = true
    · simp [List.countP_cons, hp, hx hp]
      omega
    · simp only [List.countP_cons]
      by_cases hq : q x = true <;> simp [hp, hq] <;> omega

theorem foldl_flatMap {α β γ : Type} (l : List α) (f : α → List β) (g : γ → β → γ) :
    ∀ init : γ, (l.flatMap f).foldl g init =
      l.foldl (fun acc a => (f a).foldl g acc) init := by
  induction l with
  | nil => simp
  | cons x xs ih => intro init; simp [List.flatMap_cons, List.foldl_append, ih]

end Gol

namespace Gol

theorem scanStep_dot (st : ScanSt) :
    scanStep st '.' = .next ⟨st.last, st.ccc + 1, st.row⟩ := rfl

theorem scanStep_hash (st : ScanSt) :
    scanStep st '#' = .next ⟨st.last, st.ccc + 1, st.row⟩ := rfl

theorem scanStep_marker (st : ScanSt) (c : Char) (hc : c = '.' ∨ c = '#') :
    scanStep st c = .next ⟨st.last, st.ccc + 1, st.row⟩ := by
  rcases hc with h | h <;> subst h
  · exact scanStep_dot st
  · exact scanStep_hash st

theorem scanStep_newline_first (n r : Nat) :
    scanStep ⟨0, n, r⟩ '\n' = .next ⟨n + 1, 0, r + 1⟩ := by
  simp [scanStep]

theorem scanStep_newline_match (wd r : Nat) :
    scanStep ⟨wd + 1, wd, r⟩ '\n' = .next ⟨wd + 1, 0, r + 1⟩ := by
  simp [scanStep]

theorem scanStep_newline_mismatch (wd n r : Nat) (h : wd ≠ n) :
    scanStep ⟨wd + 1, n, r⟩ '\n' = .fail .inconsistentColumnCount := by
  simp only [scanStep]
  have h1 : wd + 1 ≠ 0 := by omega
  have h2 : wd + 1 ≠ n + 1 := by omega
  simp [h1, h2]

theorem scanStep_invalid (st : ScanSt) (c : Char)
    (h1 : c ≠ '\n') (h2 : c ≠ eofChar) (h3 : c ≠ '.') (h4 : c ≠ '#') :
    scanStep st c = .fail (.invalidCharacter c) := by
  simp [scanStep, h1, h2, h3, h4]

theorem scanSeg_append (a b : List Char) (st st' : ScanSt)
    (h : scanSeg a st = some st') : scanSeg (a ++ b) st = scanSeg b st' := by
  induction a generalizing st with
  | nil =>
    simp only [scanSeg] at h
    cases h
    simp
  | cons c rest ih =>
    simp only [List.cons_append, scanSeg] at h ⊢
    cases hm : scanStep st c with
    | next st2 =>
      rw [hm] at h
      exact ih st2 h
    | stop r2 l2 => rw [hm] at h; exact Option.noConfusion h
    | fail e => rw [hm] at h; exact Option.noConfusion h

theorem scanList_of_seg (a tail : List Char) (st st' : ScanSt)
    (h : scanSeg a st = some st') : scanList (a ++ tail) st = scanList tail st' := by
  induction a generalizing st with
  | nil =>
    simp only [scanSeg] at h
    cases h
    simp
  | cons c rest ih =>
    simp only [List.cons_append, scanList]
    simp only [scanSeg] at h
    cases hm : scanStep st c with
    | next st2 =>
      rw [hm] at h
      exact ih st2 h
    | stop r2 l2 => rw [hm] at h; exact Option.noConfusion h
    | fail e => rw [hm] at h; exact Option.noConfusion h

theorem scanList_error_config (input : List Char) (e : ConfigError)
    (h : scanList input startSt = .error e) : checkConfigFile input = .error e := by
  simp [checkConfigFile, startSt] at h ⊢
  rw [h]

theorem scanSeg_markerLine (l : List Char) (hm : MarkerLine l) :
    ∀ st : ScanSt, scanSeg l st = some ⟨st.last, st.ccc + l.length, st.row⟩ := by
  induction l with
  | nil => intro st; simp [scanSeg]
  | cons c rest ih =>
    intro st
    have hc : c = '.' ∨ c = '#' := hm c (by simp)
    simp only [scanSeg, scanStep_marker st c hc]
    rw [ih (fun x hx => hm x (by simp [hx])) ⟨st.last, st.ccc + 1, st.row⟩]
    have harith : st.ccc + 1 + rest.length = st.ccc + (c :: rest).length := by
      simp [List.length_cons]
      omega
    rw [harith]

theorem scanSeg_line_first (l : List Char) (hm : MarkerLine l) :
    scanSeg (l ++ ['\n']) startSt = some ⟨l.length + 1, 0, 1⟩ := by
  rw [scanSeg_append l ['\n'] startSt ⟨0, l.length, 0⟩
    (by simpa [startSt] using scanSeg_markerLine l hm startSt)]
  simp only [scanSeg, scanStep_newline_first]

theorem scanSeg_line_next (l : List Char) (wd row : Nat) (hm : MarkerLine l)
    (hlen : l.length = wd) :
    scanSeg (l ++ ['\n']) ⟨wd + 1, 0, row⟩ = some ⟨wd + 1, 0, row + 1⟩ := by
  rw [scanSeg_append l ['\n'] ⟨wd + 1, 0, row⟩ ⟨wd + 1, wd, row⟩
    (by simpa [hlen] using scanSeg_markerLine l hm ⟨wd + 1, 0, row⟩)]
  simp only [scanSeg, scanStep_newline_match]

theorem scanSeg_lines (wd : Nat) (rs : List (List Char)) :
    rs ≠ [] → (∀ l ∈ rs, MarkerLine l ∧ l.length = wd) →
    ∀ row, scanSeg (encodeLines rs) ⟨wd + 1, 0, row⟩ =
      some ⟨wd + 1, wd, row + (rs.length - 1)⟩ := by
  induction rs with
  | nil => intro h; exact absurd rfl h
  | cons l rest ih =>
    intro _ hall row
    cases rest with
    | nil =>
      have hm := (hall l (by simp)).1
      have hlen := (hall l (by simp)).2
      simp only [encodeLines]
      rw [scanSeg_markerLine l hm ⟨wd + 1, 0, row⟩]
      simp [hlen]
    | cons m rest2 =>
      have henc : encodeLines (l :: m :: rest2) =
          (l ++ ['\n']) ++ encodeLines (m :: rest2) := by
        simp [encodeLines]
      rw [henc]
      have hm := (hall l (by simp)).1
      have hlen := (hall l (by simp)).2
      rw [scanSeg_append _ _ _ _ (scanSeg_line_next l wd row hm hlen)]
      rw [ih (by simp) (fun x hx => hall x (by simp [hx])) (row + 1)]
      have harith : row + 1 + ((m :: rest2).length - 1) =
          row + ((l :: m :: rest2).length - 1) := by
        simp [List.length_cons]
        omega
      rw [harith]

theorem checkConfig_encode_ok (wd : Nat) (rs : List (List Char)) (h2 : 2 ≤ rs.length)
    (hall : ∀ l ∈ rs, MarkerLine l ∧ l.length = wd) :
    checkConfigFile (encodeLines rs) = .ok (rs.length % 256, wd % 256) := by
  cases rs with
  | nil => simp at h2
  | cons f rest =>
    cases rest with
    | nil => simp at h2
    | cons m rest2 =>
      have henc : encodeLines (f :: m :: rest2) =
          (f ++ ['\n']) ++ encodeLines (m :: rest2) := by
        simp [encodeLines]
      have hmf := (hall f (by simp)).1
      have hlf := (hall f (by simp)).2
      have hseg1 : scanSeg (f ++ ['\n']) startSt = some ⟨wd + 1, 0, 1⟩ := by
        rw [scanSeg_line_first f hmf, hlf]
      have hseg2 : scanSeg (encodeLines (m :: rest2)) ⟨wd + 1, 0, 1⟩ =
          some ⟨wd + 1, wd, rest2.length + 1⟩ := by
        rw [scanSeg_lines wd (m :: rest2) (by simp)
          (fun x hx => hall x (by simp [hx])) 1]
        have hr : 1 + ((m :: rest2).length - 1) = rest2.length + 1 := by
          simp only [List.length_cons]
          omega
        rw [hr]
      have hfin : scanList (encodeLines (f :: m :: rest2)) startSt =
          scanList [] ⟨wd + 1, wd, rest2.length + 1⟩ := by
        rw [henc, scanList_of_seg _ _ _ _ hseg1]
        have := scanList_of_seg (encodeLines (m :: rest2)) [] ⟨wd + 1, 0, 1⟩
          ⟨wd + 1, wd, rest2.length + 1⟩ hseg2
        simpa using this
      simp only [startSt] at hfin
      simp only [checkConfigFile]
      rw [hfin]
      have hcond : ¬(wd + 1 ≠ wd + 1) := by omega
      simp only [scanList, hcond, if_false, ite_false]
      simp only [List.length_cons]
      have h2 : wd + 1 - 1 = wd := by omega
      simp [h2]

end Gol

namespace Gol

theorem scanStep_newline_eval (st : ScanSt) :
    scanStep st '\n' =
      if (if st.last = 0 then st.ccc + 1 else st.last) ≠ st.ccc + 1
      then .fail .inconsistentColumnCount
      else .next ⟨if st.last = 0 then st.ccc + 1 else st.last, 0, st.row + 1⟩ := rfl

theorem scanStep_eof_eval (st : ScanSt) :
    scanStep st eofChar =
      if st.last ≠ st.ccc + 1 then .fail .inconsistentColumnCount
      else .stop st.row st.last := rfl

theorem scanStep_other_eval (st : ScanSt) (c : Char)
    (h1 : ¬(c = '\n')) (h2 : ¬(c = eofChar)) :
    scanStep st c =
      if c ≠ '.' ∧ c ≠ '#' then .fail (.invalidCharacter c)
      else .next ⟨st.last, st.ccc + 1, st.row⟩ := by
  simp only [scanStep, if_neg h1, if_neg h2]

theorem scanStep_stop_inv (st : ScanSt) (c : Char) (r2 l2 : Nat)
    (h : scanStep st c = .stop r2 l2) :
    r2 = st.row ∧ l2 = st.last ∧ st.last = st.ccc + 1 := by
  by_cases h1 : c = '\n'
  · rw [h1, scanStep_newline_eval] at h
    split_ifs at h
  · by_cases h2 : c = eofChar
    · rw [h2, scanStep_eof_eval] at h
      by_cases h3 : st.last ≠ st.ccc + 1
      · rw [if_pos h3] at h; exact ScanMove.noConfusion h
      · rw [if_neg h3] at h
        injection h with ha hb
        exact ⟨ha.symm, hb.symm, not_not.mp h3⟩
    · rw [scanStep_other_eval st c h1 h2] at h
      split_ifs at h

theorem scanStep_next_inv (st : ScanSt) (c : Char) (st2 : ScanSt)
    (h : scanStep st c = .next st2) :
    (st2.last = st.last ∧ st2.row = st.row) ∨ (1 ≤ st2.row ∧ st2.last ≠ 0) := by
  by_cases h1 : c = '\n'
  · rw [h1, scanStep_newline_eval] at h
    by_cases h0 : st.last = 0
    · rw [if_pos h0] at h
      rw [if_neg (by omega : ¬(st.ccc + 1 ≠ st.ccc + 1))] at h
      injection h with hst
      subst hst
      right
      exact ⟨(by omega : 1 ≤ st.row + 1), (by omega : st.ccc + 1 ≠ 0)⟩
    · rw [if_neg h0] at h
      by_cases hA : st.last ≠ st.ccc + 1
      · rw [if_pos hA] at h; exact ScanMove.noConfusion h
      · rw [if_neg hA] at h
        injection h with hst
        subst hst
        right
        exact ⟨(by omega : 1 ≤ st.row + 1), h0⟩
  · by_cases h2 : c = eofChar
    · rw [h2, scanStep_eof_eval] at h
      by_cases h3 : st.last ≠ st.ccc + 1
      · rw [if_pos h3] at h; exact ScanMove.noConfusion h
      · rw [if_neg h3] at h; exact ScanMove.noConfusion h
    · rw [scanStep_other_eval st c h1 h2] at h
      by_cases hA : c ≠ '.' ∧ c ≠ '#'
      · rw [if_pos hA] at h; exact ScanMove.noConfusion h
      · rw [if_neg hA] at h
        injection h with hst
        subst hst
        left
        exact ⟨rfl, rfl⟩

theorem scanList_ok_ge (input : List Char) :
    ∀ (st : ScanSt) (row lcc : Nat),
      scanList input st = .ok (row, lcc) → (st.last ≠ 0 → 1 ≤ st.row) →
      1 ≤ row ∧ 1 ≤ lcc := by
  induction input with
  | nil =>
    intro st row lcc h hinv
    simp only [scanList] at h
    by_cases hc : st.last ≠ st.ccc + 1
    · rw [if_pos hc] at h; exact Except.noConfusion h
    · rw [if_neg hc] at h
      injection h with hp
      rw [Prod.mk.injEq] at hp
      obtain ⟨h1, h2⟩ := hp
      have hl : st.last = st.ccc + 1 := not_not.mp hc
      constructor
      · rw [← h1]; exact hinv (by omega)
      · omega
  | cons c rest ih =>
    intro st row lcc h hinv
    simp only [scanList] at h
    cases hm : scanStep st c with
    | fail e => rw [hm] at h; exact Except.noConfusion h
    | stop r2 l2 =>
      rw [hm] at h
      injection h with hp
      rw [Prod.mk.injEq] at hp
      obtain ⟨h1, h2⟩ := hp
      obtain ⟨ha, hb, hcc⟩ := scanStep_stop_inv st c r2 l2 hm
      have hrow : 1 ≤ st.row := hinv (by omega)
      constructor
      · omega
      · omega
    | next st2 =>
      rw [hm] at h
      refine ih st2 row lcc h ?_
      intro hne
      rcases scanStep_next_inv st c st2 hm with ⟨hl, hr⟩ | ⟨hr, _⟩
      · rw [hr]; exact hinv (by rw [← hl]; exact hne)
      · exact hr

theorem readCell_eq (s : List Char) : readCell s = (s.getD 0 eofChar, s.drop 1) := by
  cases s <;> simp [readCell]

theorem fillRow_snd (n : Nat) : ∀ s : List Char, (fillRow n s).2 = s.drop n := by
  induction n with
  | zero => intro s; simp [fillRow]
  | succ k ih =>
    intro s
    cases s with
    | nil => simp [fillRow, readCell, ih]
    | cons c rest => simp [fillRow, readCell, ih]

theorem fillRow_getD (n : Nat) : ∀ (s : List Char) (c : Nat), c < n →
    (fillRow n s).1.getD c defaultCell = ⟨s.getD c eofChar, s.getD c eofChar⟩ := by
  induction n with
  | zero => intro s c hc; omega
  | succ k ih =>
    intro s c hc
    cases c with
    | zero => cases s <;> simp [fillRow, readCell]
    | succ c2 =>
      cases s with
      | nil => simpa [fillRow, readCell] using ih [] c2 (by omega)
      | cons x rest => simpa [fillRow, readCell] using ih rest c2 (by omega)

theorem fillBoardAux_rowAt (w : Nat) : ∀ (hh : Nat) (s : List Char) (r : Nat), r < hh →
    rowAt (fillBoardAux hh w s) r = (fillRow w (s.drop (r * (w + 1)))).1 := by
  intro hh
  induction hh with
  | zero => intro s r hr; omega
  | succ k ih =>
    intro s r hr
    cases r with
    | zero => simp [fillBoardAux, rowAt]
    | succ r2 =>
      have hs : (readCell (fillRow w s).2).2 = s.drop (w + 1) := by
        rw [fillRow_snd, readCell_eq]
        simp [List.drop_drop]
      simp only [fillBoardAux]
      have hrow : rowAt ((fillRow w s).1 :: fillBoardAux k w (readCell (fillRow w s).2).2)
          (r2 + 1) = rowAt (fillBoardAux k w (readCell (fillRow w s).2).2) r2 := by
        simp [rowAt]
      rw [hrow, hs, ih (s.drop (w + 1)) r2 (by omega), List.drop_drop]
      have harith : w + 1 + r2 * (w + 1) = (r2 + 1) * (w + 1) := by ring
      rw [harith]

theorem fillBoard_currentAt (input : List Char) (h w r c : Nat) (hr : r < h) (hc : c < w) :
    currentAt (fillBoard input h w) r c = input.getD (r * (w + 1) + c) eofChar := by
  unfold fillBoard currentAt cellAt
  rw [fillBoardAux_rowAt w h input r hr, fillRow_getD w _ c hc, getD_drop_my]

theorem encodeLines_getD (wd : Nat) : ∀ (rs : List (List Char)), (∀ l ∈ rs, l.length = wd) →
    ∀ (r c : Nat) (d : Char), r < rs.length → c < wd →
    (encodeLines rs).getD (r * (wd + 1) + c) d = (rs.getD r []).getD c d := by
  intro rs
  induction rs with
  | nil => intro _ r c d hr _; simp at hr
  | cons l rest ih =>
    intro hall r c d hr hc
    cases rest with
    | nil =>
      cases r with
      | zero => simp [encodeLines]
      | succ r2 => simp at hr
    | cons m rest2 =>
      have henc : encodeLines (l :: m :: rest2) = l ++ '\n' :: encodeLines (m :: rest2) := by
        simp [encodeLines]
      have hlen : l.length = wd := hall l (by simp)
      cases r with
      | zero =>
        rw [henc]
        have hidx : 0 * (wd + 1) + c = c := by ring
        rw [hidx, getD_append_lt l _ c d (by omega)]
        simp
      | succ r2 =>
        rw [henc]
        have hidx : (r2 + 1) * (wd + 1) + c = l.length + (r2 * (wd + 1) + c + 1) := by
          rw [hlen]; ring
        rw [hidx, getD_append_ge l _ _ d (by omega)]
        have hsub : l.length + (r2 * (wd + 1) + c + 1) - l.length
            = r2 * (wd + 1) + c + 1 := by omega
        rw [hsub, List.getD_cons_succ]
        have := ih (fun x hx => hall x (by simp [hx])) r2 c d (by simpa using hr) hc
        rw [this]
        simp

end Gol

namespace Gol

theorem currentAt_setNewValue (b : Board) (r c : Nat) (v : Char) (x y : Nat) :
    currentAt (setNewValue b r c v) x y = currentAt b x y := by
  simp only [currentAt, cellAt, rowAt, setNewValue]
  by_cases hr : r < b.length
  · by_cases hx : r = x
    · subst hx
      rw [getD_set_self b r _ [] hr]
      by_cases hy : c = y
      · subst hy
        by_cases hcl : c < (b.getD r []).length
        · rw [getD_set_self _ c _ defaultCell hcl]
        · rw [set_oob _ c _ (by omega)]
      · rw [getD_set_ne _ c y _ defaultCell hy]
    · rw [getD_set_ne b r x _ [] hx]
  · rw [set_oob b r _ (by omega)]

theorem newAt_setCurrentValue (b : Board) (r c : Nat) (v : Char) (x y : Nat) :
    newAt (setCurrentValue b r c v) x y = newAt b x y := by
  simp only [newAt, cellAt, rowAt, setCurrentValue]
  by_cases hr : r < b.length
  · by_cases hx : r = x
    · subst hx
      rw [getD_set_self b r _ [] hr]
      by_cases hy : c = y
      · subst hy
        by_cases hcl : c < (b.getD r []).length
        · rw [getD_set_self _ c _ defaultCell hcl]
        · rw [set_oob _ c _ (by omega)]
      · rw [getD_set_ne _ c y _ defaultCell hy]
    · rw [getD_set_ne b r x _ [] hx]
  · rw [set_oob b r _ (by omega)]

theorem newAt_setNewValue_at (b : Board) (r c : Nat) (v : Char)
    (hr : r < b.length) (hc : c < (rowAt b r).length) :
    newAt (setNewValue b r c v) r c = v := by
  simp only [rowAt] at hc
  simp only [newAt, cellAt, rowAt, setNewValue]
  rw [getD_set_self b r _ [] hr, getD_set_self _ c _ defaultCell hc]

theorem newAt_setNewValue_ne (b : Board) (r c : Nat) (v : Char) (x y : Nat)
    (hne : ¬(x = r ∧ y = c)) :
    newAt (setNewValue b r c v) x y = newAt b x y := by
  simp only [newAt, cellAt, rowAt, setNewValue]
  by_cases hr : r < b.length
  · by_cases hx : r = x
    · subst hx
      rw [getD_set_self b r _ [] hr]
      by_cases hy : c = y
      · exact absurd ⟨rfl, hy.symm⟩ hne
      · rw [getD_set_ne _ c y _ defaultCell hy]
    · rw [getD_set_ne b r x _ [] hx]
  · rw [set_oob b r _ (by omega)]

theorem currentAt_setCurrentValue_at (b : Board) (r c : Nat) (v : Char)
    (hr : r < b.length) (hc : c < (rowAt b r).length) :
    currentAt (setCurrentValue b r c v) r c = v := by
  simp only [rowAt] at hc
  simp only [currentAt, cellAt, rowAt, setCurrentValue]
  rw [getD_set_self b r _ [] hr, getD_set_self _ c _ defaultCell hc]

theorem currentAt_setCurrentValue_ne (b : Board) (r c : Nat) (v : Char) (x y : Nat)
    (hne : ¬(x = r ∧ y = c)) :
    currentAt (setCurrentValue b r c v) x y = currentAt b x y := by
  simp only [currentAt, cellAt, rowAt, setCurrentValue]
  by_cases hr : r < b.length
  · by_cases hx : r = x
    · subst hx
      rw [getD_set_self b r _ [] hr]
      by_cases hy : c = y
      · exact absurd ⟨rfl, hy.symm⟩ hne
      · rw [getD_set_ne _ c y _ defaultCell hy]
    · rw [getD_set_ne b r x _ [] hx]
  · rw [set_oob b r _ (by omega)]

theorem shaped_setNewValue (b : Board) (h w r c : Nat) (v : Char)
    (hs : Shaped b h w) : Shaped (setNewValue b r c v) h w := by
  by_cases hr : r < b.length
  · obtain ⟨hlen, hrow⟩ := hs
    refine ⟨by simp only [setNewValue, List.length_set]; exact hlen, ?_⟩
    intro row hmem
    rcases mem_set_my _ _ _ _ hmem with hm | hm
    · exact hrow row hm
    · subst hm
      rw [List.length_set]
      exact hrow _ (by unfold rowAt; exact getD_mem b r [] hr)
  · simp only [setNewValue]
    rw [set_oob b r _ (by omega)]
    exact hs

theorem shaped_setCurrentValue (b : Board) (h w r c : Nat) (v : Char)
    (hs : Shaped b h w) : Shaped (setCurrentValue b r c v) h w := by
  by_cases hr : r < b.length
  · obtain ⟨hlen, hrow⟩ := hs
    refine ⟨by simp only [setCurrentValue, List.length_set]; exact hlen, ?_⟩
    intro row hmem
    rcases mem_set_my _ _ _ _ hmem with hm | hm
    · exact hrow row hm
    · subst hm
      rw [List.length_set]
      exact hrow _ (by unfold rowAt; exact getD_mem b r [] hr)
  · simp only [setCurrentValue]
    rw [set_oob b r _ (by omega)]
    exact hs

theorem shaped_rowAt_len (a : Board) (h w r : Nat) (hs : Shaped a h w) (hr : r < h) :
    (rowAt a r).length = w := by
  obtain ⟨hlen, hrow⟩ := hs
  exact hrow _ (by unfold rowAt; exact getD_mem a r [] (by omega))

theorem neighbourCount_congr (a b : Board) (h w r c : Nat)
    (hcur : ∀ x y, currentAt a x y = currentAt b x y) :
    neighbourCount a h w r c = neighbourCount b h w r c := by
  unfold neighbourCount
  apply foldl_congr_mem
  intro n d _
  rw [hcur]

end Gol

namespace Gol

theorem phase1_fold_spec (b : Board) (h w : Nat) :
    ∀ (ps : List (Nat × Nat)) (a : Board),
      Shaped a h w →
      (∀ x y, currentAt a x y = currentAt b x y) →
      (∀ p ∈ ps, p.1 < h ∧ p.2 < w) →
      Shaped (ps.foldl (stepCompute h w) a) h w ∧
      (∀ x y, currentAt (ps.foldl (stepCompute h w) a) x y = currentAt b x y) ∧
      (∀ r c, r < h → c < w →
        newAt (ps.foldl (stepCompute h w) a) r c =
          if (r, c) ∈ ps then nextValue (currentAt b r c) (neighbourCount b h w r c)
          else newAt a r c) := by
  intro ps
  induction ps with
  | nil =>
    intro a hsh hcur _
    refine ⟨hsh, hcur, ?_⟩
    intro r c _ _
    simp
  | cons p ps ih =>
    intro a hsh hcur hin
    obtain ⟨hp1, hp2⟩ := hin p (by simp)
    have hstep : stepCompute h w a p =
        setNewValue a p.1 p.2
          (nextValue (currentAt a p.1 p.2) (neighbourCount a h w p.1 p.2)) := rfl
    have hv : nextValue (currentAt a p.1 p.2) (neighbourCount a h w p.1 p.2) =
        nextValue (currentAt b p.1 p.2) (neighbourCount b h w p.1 p.2) := by
      rw [hcur, neighbourCount_congr a b h w p.1 p.2 hcur]
    have hsh' : Shaped (stepCompute h w a p) h w := by
      rw [hstep]; exact shaped_setNewValue a h w p.1 p.2 _ hsh
    have hcur' : ∀ x y, currentAt (stepCompute h w a p) x y = currentAt b x y := by
      intro x y; rw [hstep, currentAt_setNewValue]; exact hcur x y
    obtain ⟨ihs, ihc, ihn⟩ := ih (stepCompute h w a p) hsh' hcur'
      (fun q hq => hin q (by simp [hq]))
    simp only [List.foldl_cons]
    refine ⟨ihs, ihc, ?_⟩
    intro r c hr hc
    rw [ihn r c hr hc]
    by_cases hmem : (r, c) ∈ ps
    · rw [if_pos hmem, if_pos (by simp [hmem])]
    · rw [if_neg hmem]
      by_cases hpq : (r, c) = p
      · subst hpq
        rw [if_pos (by simp)]
        rw [hstep]
        have hrb : (r, c).1 < a.length := by
          obtain ⟨hlen, _⟩ := hsh
          omega
        have hcb : (r, c).2 < (rowAt a (r, c).1).length := by
          rw [shaped_rowAt_len a h w (r, c).1 hsh hp1]
          exact hp2
        rw [newAt_setNewValue_at a (r, c).1 (r, c).2 _ hrb hcb]
        exact hv
      · rw [if_neg (by simp [hpq, hmem] : ¬((r, c) ∈ p :: ps))]
        rw [hstep, newAt_setNewValue_ne]
        intro hcon
        exact hpq (by rw [Prod.mk.injEq]; exact ⟨hcon.1, hcon.2⟩)

end Gol

namespace Gol

theorem phase2_fold_spec (h w : Nat) :
    ∀ (ps : List (Nat × Nat)) (a : Board),
      Shaped a h w →
      (∀ p ∈ ps, p.1 < h ∧ p.2 < w) →
      Shaped (ps.foldl stepCommit a) h w ∧
      (∀ x y, newAt (ps.foldl stepCommit a) x y = newAt a x y) ∧
      (∀ r c, r < h → c < w →
        currentAt (ps.foldl stepCommit a) r c =
          if (r, c) ∈ ps then newAt a r c else currentAt a r c) := by
  intro ps
  induction ps with
  | nil =>
    intro a hsh _
    refine ⟨hsh, fun x y => rfl, ?_⟩
    intro r c _ _
    simp
  | cons p ps ih =>
    intro a hsh hin
    obtain ⟨hp1, hp2⟩ := hin p (by simp)
    have hstep : stepCommit a p = setCurrentValue a p.1 p.2 (newAt a p.1 p.2) := rfl
    have hsh' : Shaped (stepCommit a p) h w := by
      rw [hstep]; exact shaped_setCurrentValue a h w p.1 p.2 _ hsh
    have hnew' : ∀ x y, newAt (stepCommit a p) x y = newAt a x y := by
      intro x y; rw [hstep, newAt_setCurrentValue]
    obtain ⟨ihs, ihn, ihc⟩ := ih (stepCommit a p) hsh'
      (fun q hq => hin q (by simp [hq]))
    simp only [List.foldl_cons]
    refine ⟨ihs, fun x y => (ihn x y).trans (hnew' x y), ?_⟩
    intro r c hr hc
    rw [ihc r c hr hc]
    by_cases hmem : (r, c) ∈ ps
    · rw [if_pos hmem, if_pos (by simp [hmem]), hnew' r c]
    · rw [if_neg hmem]
      by_cases hpq : (r, c) = p
      · subst hpq
        rw [if_pos (by simp)]
        rw [hstep]
        have hrb : (r, c).1 < a.length := by
          obtain ⟨hlen, _⟩ := hsh
          omega
        have hcb : (r, c).2 < (rowAt a (r, c).1).length := by
          rw [shaped_rowAt_len a h w (r, c).1 hsh hp1]
          exact hp2
        rw [currentAt_setCurrentValue_at a (r, c).1 (r, c).2 _ hrb hcb]
      · rw [if_neg (by simp [hpq, hmem] : ¬((r, c) ∈ p :: ps))]
        rw [hstep, currentAt_setCurrentValue_ne]
        intro hcon
        exact hpq (by rw [Prod.mk.injEq]; exact ⟨hcon.1, hcon.2⟩)

theorem mem_cellIndices (h w r c : Nat) :
    (r, c) ∈ cellIndices h w ↔ r < h ∧ c < w := by
  simp [cellIndices]

theorem phase1_eq_fold (b : Board) (h w : Nat) :
    phase1 b h w = (cellIndices h w).foldl (stepCompute h w) b := by
  unfold phase1 cellIndices
  rw [foldl_flatMap]
  apply foldl_congr_mem
  intro acc r _
  rw [List.foldl_map]
  rfl

theorem phase2_eq_fold (b : Board) (h w : Nat) :
    phase2 b h w = (cellIndices h w).foldl stepCommit b := by
  unfold phase2 cellIndices
  rw [foldl_flatMap]
  apply foldl_congr_mem
  intro acc r _
  rw [List.foldl_map]
  rfl

theorem updateBoard_cellwise (b : Board) (h w r c : Nat) (hsh : Shaped b h w)
    (hr : r < h) (hc : c < w) :
    currentAt (updateBoard b h w) r c =
      nextValue (currentAt b r c) (neighbourCount b h w r c) := by
  have hpsin : ∀ p ∈ cellIndices h w, p.1 < h ∧ p.2 < w := by
    intro p hp
    cases p with
    | mk p1 p2 => exact (mem_cellIndices h w p1 p2).mp hp
  obtain ⟨p1s, p1c, p1n⟩ :=
    phase1_fold_spec b h w (cellIndices h w) b hsh (fun _ _ => rfl) hpsin
  obtain ⟨p2s, p2n, p2c⟩ :=
    phase2_fold_spec h w (cellIndices h w) ((cellIndices h w).foldl (stepCompute h w) b)
      p1s hpsin
  unfold updateBoard
  rw [phase1_eq_fold, phase2_eq_fold]
  rw [p2c r c hr hc, if_pos ((mem_cellIndices h w r c).mpr ⟨hr, hc⟩)]
  rw [p1n r c hr hc, if_pos ((mem_cellIndices h w r c).mpr ⟨hr, hc⟩)]

theorem shaped_updateBoard (b : Board) (h w : Nat) (hsh : Shaped b h w) :
    Shaped (updateBoard b h w) h w := by
  have hpsin : ∀ p ∈ cellIndices h w, p.1 < h ∧ p.2 < w := by
    intro p hp
    cases p with
    | mk p1 p2 => exact (mem_cellIndices h w p1 p2).mp hp
  obtain ⟨p1s, _, _⟩ :=
    phase1_fold_spec b h w (cellIndices h w) b hsh (fun _ _ => rfl) hpsin
  obtain ⟨p2s, _, _⟩ :=
    phase2_fold_spec h w (cellIndices h w) ((cellIndices h w).foldl (stepCompute h w) b)
      p1s hpsin
  unfold updateBoard
  rw [phase1_eq_fold, phase2_eq_fold]
  exact p2s

end Gol

namespace Gol

theorem twoPow64_eq : twoPow64 = 18446744073709551616 := rfl

theorem lt_twoPow64_of_lt_256 (x : Int) (hx : x < 256) : x < twoPow64 := by
  rw [twoPow64_eq]
  omega

theorem wrap64_of_nonneg (a : Nat) (d : Int) (h0 : 0 ≤ (a : Int) + d)
    (hlt : (a : Int) + d < twoPow64) :
    wrap64 a d = ((a : Int) + d).toNat := by
  unfold wrap64
  rw [Int.emod_eq_of_lt h0 hlt]

theorem wrap64_zero_negOne : wrap64 0 (-1) = 18446744073709551615 := by decide

theorem wrap64_ge_iff (bound a : Nat) (d : Int) (ha : a < bound) (hb : bound ≤ 255)
    (hd : d = -1 ∨ d = 0 ∨ d = 1) :
    bound ≤ wrap64 a d ↔ ¬(0 ≤ (a : Int) + d ∧ (a : Int) + d < (bound : Int)) := by
  rcases hd with h | h | h <;> subst h
  · cases a with
    | zero =>
      rw [wrap64_zero_negOne]
      constructor
      · intro _ hcon
        have := hcon.1
        omega
      · intro _
        omega
    | succ k =>
      have hw : wrap64 (k + 1) (-1) = k := by
        rw [wrap64_of_nonneg (k + 1) (-1) (by push_cast; omega)
          (lt_twoPow64_of_lt_256 _ (by push_cast; omega))]
        have he : ((k + 1 : Nat) : Int) + (-1) = (k : Int) := by push_cast; ring
        rw [he, Int.toNat_natCast]
      rw [hw]
      constructor
      · intro hle hcon
        have := hcon.2
        push_cast at this
        omega
      · intro hcon
        by_contra hlt
        push_neg at hlt
        exact hcon ⟨by push_cast; omega, by push_cast; omega⟩
  · have hw : wrap64 a 0 = a := by
      rw [wrap64_of_nonneg a 0 (by omega)
        (lt_twoPow64_of_lt_256 _ (by omega))]
      simp
    rw [hw]
    constructor
    · intro hle hcon
      have := hcon.2
      push_cast at this
      omega
    · intro hcon
      by_contra hlt
      push_neg at hlt
      exact hcon ⟨by omega, by omega⟩
  · have hw : wrap64 a 1 = a + 1 := by
      rw [wrap64_of_nonneg a 1 (by omega)
        (lt_twoPow64_of_lt_256 _ (by omega))]
      have he : ((a : Nat) : Int) + 1 = ((a + 1 : Nat) : Int) := by push_cast; ring
      rw [he, Int.toNat_natCast]
    rw [hw]
    constructor
    · intro hle hcon
      have := hcon.2
      push_cast at this
      omega
    · intro hcon
      by_contra hlt
      push_neg at hlt
      exact hcon ⟨by omega, by omega⟩

theorem mem_offsets_coord (d : Int × Int) (hd : d ∈ neighbourOffsets) :
    (d.1 = -1 ∨ d.1 = 0 ∨ d.1 = 1) ∧ (d.2 = -1 ∨ d.2 = 0 ∨ d.2 = 1) := by
  simp only [neighbourOffsets, List.mem_cons, List.not_mem_nil, or_false] at hd
  rcases hd with h | h | h | h | h | h | h | h <;> subst h <;> refine ⟨?_, ?_⟩ <;> decide

end Gol

namespace Gol

theorem neighbourCount_eq_live (b : Board) (h w r c : Nat)
    (hh : h ≤ 255) (hw : w ≤ 255) (hr : r < h) (hc : c < w) :
    neighbourCount b h w r c = liveNeighbours b h w r c := by
  have hbody : ∀ (n : Nat) (d : Int × Int), d ∈ neighbourOffsets →
      (if h ≤ wrap64 r d.1 ∨ w ≤ wrap64 c d.2 then n
       else if currentAt b (wrap64 r d.1) (wrap64 c d.2) = '#' then n + 1 else n) =
      (if liveCellPred b h w r c d then n + 1 else n) := by
    intro n d hd
    obtain ⟨hd1, hd2⟩ := mem_offsets_coord d hd
    have hrow := wrap64_ge_iff h r d.1 hr hh hd1
    have hcol := wrap64_ge_iff w c d.2 hc hw hd2
    by_cases hvr : 0 ≤ (r : Int) + d.1 ∧ (r : Int) + d.1 < (h : Int)
    · by_cases hvc : 0 ≤ (c : Int) + d.2 ∧ (c : Int) + d.2 < (w : Int)
      · have hnr : ¬(h ≤ wrap64 r d.1) := fun hcon => (hrow.mp hcon) hvr
        have hnc : ¬(w ≤ wrap64 c d.2) := fun hcon => (hcol.mp hcon) hvc
        rw [if_neg (not_or.mpr ⟨hnr, hnc⟩)]
        have hwr : wrap64 r d.1 = ((r : Int) + d.1).toNat := by
          apply wrap64_of_nonneg r d.1 hvr.1
          apply lt_twoPow64_of_lt_256
          have hb1 : d.1 ≤ 1 := by rcases hd1 with h1 | h1 | h1 <;> omega
          omega
        have hwc : wrap64 c d.2 = ((c : Int) + d.2).toNat := by
          apply wrap64_of_nonneg c d.2 hvc.1
          apply lt_twoPow64_of_lt_256
          have hb2 : d.2 ≤ 1 := by rcases hd2 with h1 | h1 | h1 <;> omega
          omega
        rw [hwr, hwc]
        by_cases halive :
            currentAt b ((r : Int) + d.1).toNat ((c : Int) + d.2).toNat = '#'
        · have hcnd : liveCellPred b h w r c d = true := by
            simp [liveCellPred, hvr.1, hvr.2, hvc.1, hvc.2, halive]
          rw [if_pos halive, if_pos hcnd]
        · have hcnd : ¬(liveCellPred b h w r c d = true) := by
            simp [liveCellPred, halive]
          rw [if_neg halive, if_neg hcnd]
      · have hyes : h ≤ wrap64 r d.1 ∨ w ≤ wrap64 c d.2 := .inr (hcol.mpr hvc)
        have hcnd : ¬(liveCellPred b h w r c d = true) := by
          simp only [liveCellPred, Bool.and_eq_true, decide_eq_true_eq]
          intro hcon
          exact hvc ⟨hcon.1.1.2, hcon.1.2⟩
        rw [if_pos hyes, if_neg hcnd]
    · have hyes : h ≤ wrap64 r d.1 ∨ w ≤ wrap64 c d.2 := .inl (hrow.mpr hvr)
      have hcnd : ¬(liveCellPred b h w r c d = true) := by
        simp only [liveCellPred, Bool.and_eq_true, decide_eq_true_eq]
        intro hcon
        exact hvr ⟨hcon.1.1.1.1, hcon.1.1.1.2⟩
      rw [if_pos hyes, if_neg hcnd]
  unfold neighbourCount liveNeighbours
  exact (foldl_congr_mem neighbourOffsets _ _ 0 hbody).trans
    ((foldl_count (liveCellPred b h w r c) neighbourOffsets 0).trans (Nat.zero_add _))

theorem liveNeighbours_corner_le (b : Board) (h w r c : Nat)
    (hcr : r = 0 ∨ r + 1 = h) (hcc : c = 0 ∨ c + 1 = w) :
    liveNeighbours b h w r c ≤ 3 := by
  unfold liveNeighbours
  rcases hcr with h1 | h1 <;> rcases hcc with h2 | h2
  · refine le_trans (countP_mono_mem neighbourOffsets _
      (fun d => decide (0 ≤ d.1) && decide (0 ≤ d.2)) ?_) (by decide)
    intro d _ hp
    simp only [liveCellPred, Bool.and_eq_true, decide_eq_true_eq] at hp ⊢
    obtain ⟨⟨⟨⟨hA, hB⟩, hC⟩, hD⟩, _⟩ := hp
    subst h1 h2
    constructor <;> [skip; skip] <;> omega
  · refine le_trans (countP_mono_mem neighbourOffsets _
      (fun d => decide (0 ≤ d.1) && decide (d.2 ≤ 0)) ?_) (by decide)
    intro d _ hp
    simp only [liveCellPred, Bool.and_eq_true, decide_eq_true_eq] at hp ⊢
    obtain ⟨⟨⟨⟨hA, hB⟩, hC⟩, hD⟩, _⟩ := hp
    subst h1
    constructor
    · omega
    · omega
  · refine le_trans (countP_mono_mem neighbourOffsets _
      (fun d => decide (d.1 ≤ 0) && decide (0 ≤ d.2)) ?_) (by decide)
    intro d _ hp
    simp only [liveCellPred, Bool.and_eq_true, decide_eq_true_eq] at hp ⊢
    obtain ⟨⟨⟨⟨hA, hB⟩, hC⟩, hD⟩, _⟩ := hp
    subst h2
    constructor
    · omega
    · omega
  · refine le_trans (countP_mono_mem neighbourOffsets _
      (fun d => decide (d.1 ≤ 0) && decide (d.2 ≤ 0)) ?_) (by decide)
    intro d _ hp
    simp only [liveCellPred, Bool.and_eq_true, decide_eq_true_eq] at hp ⊢
    obtain ⟨⟨⟨⟨hA, hB⟩, hC⟩, hD⟩, _⟩ := hp
    constructor
    · omega
    · omega

theorem liveNeighbours_edge_le (b : Board) (h w r c : Nat)
    (hedge : r = 0 ∨ r + 1 = h ∨ c = 0 ∨ c + 1 = w) :
    liveNeighbours b h w r c ≤ 5 := by
  unfold liveNeighbours
  rcases hedge with h1 | h1 | h1 | h1
  · refine le_trans (countP_mono_mem neighbourOffsets _
      (fun d => decide (0 ≤ d.1)) ?_) (by decide)
    intro d _ hp
    simp only [liveCellPred, Bool.and_eq_true, decide_eq_true_eq] at hp ⊢
    obtain ⟨⟨⟨⟨hA, hB⟩, hC⟩, hD⟩, _⟩ := hp
    subst h1
    omega
  · refine le_trans (countP_mono_mem neighbourOffsets _
      (fun d => decide (d.1 ≤ 0)) ?_) (by decide)
    intro d _ hp
    simp only [liveCellPred, Bool.and_eq_true, decide_eq_true_eq] at hp ⊢
    obtain ⟨⟨⟨⟨hA, hB⟩, hC⟩, hD⟩, _⟩ := hp
    omega
  · refine le_trans (countP_mono_mem neighbourOffsets _
      (fun d => decide (0 ≤ d.2)) ?_) (by decide)
    intro d _ hp
    simp only [liveCellPred, Bool.and_eq_true, decide_eq_true_eq] at hp ⊢
    obtain ⟨⟨⟨⟨hA, hB⟩, hC⟩, hD⟩, _⟩ := hp
    subst h1
    omega
  · refine le_trans (countP_mono_mem neighbourOffsets _
      (fun d => decide (d.2 ≤ 0)) ?_) (by decide)
    intro d _ hp
    simp only [liveCellPred, Bool.and_eq_true, decide_eq_true_eq] at hp ⊢
    obtain ⟨⟨⟨⟨hA, hB⟩, hC⟩, hD⟩, _⟩ := hp
    omega

end Gol

namespace Gol

theorem validBoard_currentAt (b : Board) (h w r c : Nat) (hv : ValidBoard b)
    (hsh : Shaped b h w) (hr : r < h) (hc : c < w) :
    currentAt b r c = '.' ∨ currentAt b r c = '#' := by
  obtain ⟨hlen, hrow⟩ := hsh
  have hrmem : rowAt b r ∈ b := by
    unfold rowAt
    exact getD_mem b r [] (by omega)
  have hcmem : cellAt b r c ∈ rowAt b r := by
    unfold cellAt
    exact getD_mem _ c defaultCell (by rw [hrow _ hrmem]; omega)
  exact hv _ hrmem _ hcmem

/-- C1: for every valid board (each cell holding one of the two markers),
updateBoard computes every cell's next current value from the pre-update
generation alone, by the standard rule: alive with 2 or 3 live in-bounds
neighbours, or dead with exactly 3, gives alive; anything else gives dead.
The right-hand side depends only on the original board, which is exactly the
statement that the two-phase loop commits all next states only after all of
them are computed from the old generation.  h, w ≤ 255 is the data model's
dimension bound: every constructed board has uint8_t dimensions. -/
theorem updateBoard_follows_life_rule (b : Board) (h w r c : Nat)
    (hsh : Shaped b h w) (hv : ValidBoard b) (hh : h ≤ 255) (hw : w ≤ 255)
    (hr : r < h) (hc : c < w) :
    currentAt (updateBoard b h w) r c =
      (if specNext ((currentAt b r c) == '#') (liveNeighbours b h w r c) = true
       then '#' else '.') := by
  rw [updateBoard_cellwise b h w r c hsh hr hc,
      neighbourCount_eq_live b h w r c hh hw hr hc]
  rcases validBoard_currentAt b h w r c hv hsh hr hc with hcur | hcur <;> rw [hcur]
  · by_cases h3 : liveNeighbours b h w r c = 3
    · rw [h3]; decide
    · simp [nextValue, specNext, h3]
  · by_cases h2 : liveNeighbours b h w r c = 2
    · rw [h2]; decide
    · by_cases h3 : liveNeighbours b h w r c = 3
      · rw [h3]; decide
      · simp [nextValue, specNext, h2, h3]

/-- Witness for C1: the centre cell of the 3x3 vertical blinker. -/
theorem updateBoard_follows_life_rule_witness :
    currentAt (updateBoard (ofRows [['.','#','.'],['.','#','.'],['.','#','.']]) 3 3) 1 1 =
      (if specNext
          ((currentAt (ofRows [['.','#','.'],['.','#','.'],['.','#','.']]) 1 1) == '#')
          (liveNeighbours (ofRows [['.','#','.'],['.','#','.'],['.','#','.']]) 3 3 1 1)
          = true
       then '#' else '.') :=
  updateBoard_follows_life_rule (ofRows [['.','#','.'],['.','#','.'],['.','#','.']]) 3 3 1 1
    (by unfold Shaped; decide) (by unfold ValidBoard; decide)
    (by decide) (by decide) (by decide) (by decide)

/-- C2: the neighbour count of updateBoard equals the count over the 8
offsets restricted to positions inside [0, h) x [0, w) (hard edges, no
wrap-around), and consequently a corner cell counts at most 3 neighbours and
an edge cell at most 5. -/
theorem neighbourCount_hard_edges (b : Board) (h w r c : Nat)
    (hh : h ≤ 255) (hw : w ≤ 255) (hr : r < h) (hc : c < w) :
    neighbourCount b h w r c = liveNeighbours b h w r c ∧
    ((r = 0 ∨ r + 1 = h) ∧ (c = 0 ∨ c + 1 = w) → neighbourCount b h w r c ≤ 3) ∧
    ((r = 0 ∨ r + 1 = h) ∨ (c = 0 ∨ c + 1 = w) → neighbourCount b h w r c ≤ 5) := by
  have he := neighbourCount_eq_live b h w r c hh hw hr hc
  refine ⟨he, ?_, ?_⟩
  · intro hcorn
    rw [he]
    exact liveNeighbours_corner_le b h w r c hcorn.1 hcorn.2
  · intro hedge
    rw [he]
    apply liveNeighbours_edge_le
    tauto

/-- Witness for C2: the top-left corner of the 2x2 all-alive block. -/
theorem neighbourCount_hard_edges_witness :
    neighbourCount (ofRows [['#','#'],['#','#']]) 2 2 0 0 =
      liveNeighbours (ofRows [['#','#'],['#','#']]) 2 2 0 0 ∧
    neighbourCount (ofRows [['#','#'],['#','#']]) 2 2 0 0 ≤ 3 := by
  obtain ⟨ha, hb, _⟩ := neighbourCount_hard_edges (ofRows [['#','#'],['#','#']]) 2 2 0 0
    (by decide) (by decide) (by decide) (by decide)
  exact ⟨ha, hb ⟨Or.inl rfl, Or.inl rfl⟩⟩

/-- C8: one updateBoard step turns the vertical 3x3 blinker into its
90-degree rotated form, and a second step restores the original, so two
steps act as the identity on this board. -/
theorem blinker_oscillates :
    currentsOf (updateBoard (ofRows [['.','#','.'],['.','#','.'],['.','#','.']]) 3 3) =
      [['.','.','.'],['#','#','#'],['.','.','.']] ∧
    currentsOf (updateBoard
        (updateBoard (ofRows [['.','#','.'],['.','#','.'],['.','#','.']]) 3 3) 3 3) =
      [['.','#','.'],['.','#','.'],['.','#','.']] := by
  constructor <;> decide

/-- C9: the 2x2 all-alive block is a fixed point of updateBoard: n steps
leave it unchanged for every n. -/
theorem block_fixed_point (n : Nat) :
    (fun bd => updateBoard bd 2 2)^[n] (ofRows [['#','#'],['#','#']]) =
      ofRows [['#','#'],['#','#']] := by
  induction n with
  | zero => rfl
  | succ k ih =>
    rw [Function.iterate_succ_apply', ih]
    decide

end Gol

namespace Gol

/-- C3 counterexample: the 1x1 configuration consisting of one marker line
followed by a line terminator — well-formed in the claim's sense — is
rejected with InconsistentColumnCount (the EOF pseudo-read makes the final
column count 1 while last_column_count is 2), instead of parsing as a 1x1
board. -/
theorem terminated_final_line_rejected :
    checkConfigFile ['#', '\n'] = .error .inconsistentColumnCount := rfl

/-- C3 (amended): a configuration of N lines of exactly M markers each, with
the first N-1 lines newline-terminated and the final line unterminated
(which is the shape the scanner accepts), 2 ≤ N ≤ 255 and M ≤ 255, parses
with height N and width M, and cell (r, c) of the filled board holds the
source character at row r, column c — in particular it is the alive marker
iff that character is the alive marker. -/
theorem wellFormed_parse_roundTrip (rs : List (List Char)) (wd : Nat)
    (h2 : 2 ≤ rs.length) (h255 : rs.length ≤ 255) (hw255 : wd ≤ 255)
    (hall : ∀ l ∈ rs, MarkerLine l ∧ l.length = wd) :
    checkConfigFile (encodeLines rs) = .ok (rs.length, wd) ∧
    ∀ r c, r < rs.length → c < wd →
      currentAt (fillBoard (encodeLines rs) rs.length wd) r c =
        (rs.getD r []).getD c '.' ∧
      (currentAt (fillBoard (encodeLines rs) rs.length wd) r c = '#' ↔
        (rs.getD r []).getD c '.' = '#') := by
  constructor
  · rw [checkConfig_encode_ok wd rs h2 hall]
    rw [Nat.mod_eq_of_lt (by omega), Nat.mod_eq_of_lt (by omega)]
  · intro r c hr hc
    have hpos := fillBoard_currentAt (encodeLines rs) rs.length wd r c hr hc
    have henc := encodeLines_getD wd rs (fun l hl => (hall l hl).2) r c eofChar hr hc
    have hcell : currentAt (fillBoard (encodeLines rs) rs.length wd) r c =
        (rs.getD r []).getD c '.' := by
      rw [hpos, henc]
      apply getD_default_irrel
      rw [(hall _ (getD_mem rs r [] (by omega))).2]
      omega
    exact ⟨hcell, by rw [hcell]⟩

/-- Witness for the amended C3: the 2x1 configuration with rows "#" and ".". -/
theorem wellFormed_parse_roundTrip_witness :
    checkConfigFile (encodeLines [['#'], ['.']]) = .ok (2, 1) ∧
    currentAt (fillBoard (encodeLines [['#'], ['.']]) 2 1) 0 0 = '#' := by
  have hall : ∀ l ∈ [['#'], ['.']], MarkerLine l ∧ l.length = 1 := by
    intro l hl
    simp only [List.mem_cons, List.not_mem_nil, or_false] at hl
    rcases hl with hl | hl <;> subst hl <;>
      exact ⟨by unfold MarkerLine; decide, by decide⟩
  obtain ⟨hok, hcells⟩ := wellFormed_parse_roundTrip [['#'], ['.']] 1
    (by decide) (by decide) (by decide) hall
  exact ⟨hok, ((hcells 0 0 (by decide) (by decide)).1).trans (by decide)⟩

/-- C4: once a first completed line has established the expected column
count (last_column_count = wd + 1) and the loop has reached the current
point without failing or stopping, a completed marker line whose length
differs from wd fails the scan with InconsistentColumnCount; an unterminated
final marker line of a different length fails the same check at end of
input. -/
theorem inconsistent_columns_rejected :
    (∀ (pre : List Char) (wd row : Nat) (l rest : List Char),
      scanSeg pre startSt = some ⟨wd + 1, 0, row⟩ →
      MarkerLine l → l.length ≠ wd →
      checkConfigFile (pre ++ l ++ '\n' :: rest) = .error .inconsistentColumnCount) ∧
    (∀ (pre : List Char) (wd row : Nat) (l : List Char),
      scanSeg pre startSt = some ⟨wd + 1, 0, row⟩ →
      MarkerLine l → l.length ≠ wd →
      checkConfigFile (pre ++ l) = .error .inconsistentColumnCount) := by
  constructor
  · intro pre wd row l rest hpre hm hlen
    apply scanList_error_config
    rw [List.append_assoc, scanList_of_seg pre _ _ _ hpre]
    rw [scanList_of_seg l ('\n' :: rest) ⟨wd + 1, 0, row⟩ ⟨wd + 1, l.length, row⟩
      (by simpa using scanSeg_markerLine l hm ⟨wd + 1, 0, row⟩)]
    simp only [scanList]
    rw [scanStep_newline_mismatch wd l.length row (fun hcon => hlen hcon.symm)]
  · intro pre wd row l hpre hm hlen
    apply scanList_error_config
    rw [scanList_of_seg pre _ _ _ hpre]
    have h2 : scanList l ⟨wd + 1, 0, row⟩ = scanList [] ⟨wd + 1, l.length, row⟩ := by
      have := scanList_of_seg l [] ⟨wd + 1, 0, row⟩ ⟨wd + 1, l.length, row⟩
        (by simpa using scanSeg_markerLine l hm ⟨wd + 1, 0, row⟩)
      simpa using this
    rw [h2]
    simp only [scanList]
    rw [if_pos (show wd + 1 ≠ l.length + 1 by omega)]

/-- Witness for C4: the spec's example input "##" newline "#" newline (for
the completed-line check) and "##" newline "#" (for the end-of-input
check). -/
theorem inconsistent_columns_rejected_witness :
    checkConfigFile ['#', '#', '\n', '#', '\n'] = .error .inconsistentColumnCount ∧
    checkConfigFile ['#', '#', '\n', '#'] = .error .inconsistentColumnCount := by
  obtain ⟨hgen1, hgen2⟩ := inconsistent_columns_rejected
  constructor
  · have := hgen1 ['#', '#', '\n'] 2 1 ['#'] [] (by decide)
      (by unfold MarkerLine; decide) (by decide)
    simpa using this
  · have := hgen2 ['#', '#', '\n'] 2 1 ['#'] (by decide)
      (by unfold MarkerLine; decide) (by decide)
    simpa using this

/-- C5 counterexample: a byte 255 is neither of the two markers nor the line
terminator, yet the scan of ['.', byte 255] does not fail with
InvalidCharacter(byte 255): the char-typed fgetc result makes byte 255
compare equal to EOF, so the scanner runs the end-of-input check instead and
reports InconsistentColumnCount. -/
theorem byte255_not_invalid_character :
    checkConfigFile ['.', Char.ofNat 255] = .error .inconsistentColumnCount ∧
    ConfigError.inconsistentColumnCount ≠
      ConfigError.invalidCharacter (Char.ofNat 255) :=
  ⟨rfl, by decide⟩

/-- C5 (amended): if the scan reaches a byte that is neither marker, nor the
line terminator, nor byte 255 (which the code conflates with the EOF
sentinel), having processed the preceding bytes without error and without
stopping, it fails with InvalidCharacter carrying exactly that byte. -/
theorem invalid_character_rejected (pre : List Char) (st : ScanSt) (bb : Char)
    (rest : List Char) (hpre : scanSeg pre startSt = some st)
    (h1 : bb ≠ '.') (h2 : bb ≠ '#') (h3 : bb ≠ '\n') (h4 : bb ≠ eofChar) :
    checkConfigFile (pre ++ bb :: rest) = .error (.invalidCharacter bb) := by
  apply scanList_error_config
  rw [scanList_of_seg pre _ _ _ hpre]
  simp only [scanList]
  rw [scanStep_invalid st bb h3 h4 h1 h2]

/-- Witness for the amended C5: the spec's example input "#x" newline ".#"
newline, whose first anomalous byte is 'x'. -/
theorem invalid_character_rejected_witness :
    checkConfigFile ['#', 'x', '\n', '.', '#', '\n'] =
      .error (.invalidCharacter 'x') := by
  have := invalid_character_rejected ['#'] ⟨0, 1, 0⟩ 'x' ['\n', '.', '#', '\n']
    (by decide) (by decide) (by decide) (by decide) (by decide)
  simpa using this

/-- C6 counterexample: the empty input fails, but the reported error kind is
InconsistentColumnCount, not EmptyInput (no EmptyInput message exists in the
code). -/
theorem empty_input_error_kind :
    checkConfigFile [] = .error .inconsistentColumnCount ∧
    (ConfigError.inconsistentColumnCount ≠ ConfigError.emptyInput) :=
  ⟨rfl, by decide⟩

/-- C6 (amended): the empty input does not parse; it fails with the
InconsistentColumnCount error: the EOF pseudo-read increments the column
count to 1 while last_column_count is still 0. -/
theorem empty_input_rejected :
    checkConfigFile [] = .error .inconsistentColumnCount := rfl

/-- C7 counterexample: the one-byte input consisting of a single newline
parses successfully, with stored height 2 and stored width 0. -/
theorem zero_width_accepted : checkConfigFile ['\n'] = .ok (2, 0) := rfl

/-- C7 (amended): every successful parse stores height = row_count + 1 and
width = last_column_count - 1 reduced mod 256 by the uint8_t fields (so both
stored values are < 256), where the scanner guarantees row_count ≥ 1 and
last_column_count ≥ 1; width 0 is possible and true dimensions of 256 or
more wrap around. -/
theorem parsed_dims_uint8 (input : List Char) (h w row lcc : Nat)
    (hok : checkConfigFile input = .ok (h, w))
    (hloop : scanList input ⟨0, 0, 0⟩ = .ok (row, lcc)) :
    1 ≤ row ∧ 1 ≤ lcc ∧ h = (row + 1) % 256 ∧ w = (lcc - 1) % 256 ∧
    h < 256 ∧ w < 256 := by
  have hge := scanList_ok_ge input ⟨0, 0, 0⟩ row lcc hloop
    (fun hcon => absurd rfl hcon)
  unfold checkConfigFile at hok
  rw [hloop] at hok
  injection hok with hp
  rw [Prod.mk.injEq] at hp
  obtain ⟨hh, hw⟩ := hp
  refine ⟨hge.1, hge.2, hh.symm, hw.symm, ?_, ?_⟩
  · rw [← hh]; exact Nat.mod_lt _ (by omega)
  · rw [← hw]; exact Nat.mod_lt _ (by omega)

/-- Witness for the amended C7: the 2x1 input "#" newline "#". -/
theorem parsed_dims_uint8_witness :
    1 ≤ 1 ∧ 1 ≤ 2 ∧ 2 = (1 + 1) % 256 ∧ 1 = (2 - 1) % 256 ∧ 2 < 256 ∧ 1 < 256 :=
  parsed_dims_uint8 ['#', '\n', '#'] 2 1 1 2 rfl rfl

/-- C10: demonstration of the failing input — 7 lines of 300 dots each
(first 6 newline-terminated, last unterminated).  checkConfigFile accepts it
and stores width 300 mod 256 = 44, and the board then built by fillBoard has
the newline byte as the current value of cell (6, 30), which is neither
marker: successful construction does not guarantee the marker alphabet. -/
theorem constructed_board_nonmarker_cell :
    checkConfigFile (encodeLines (List.replicate 7 (List.replicate 300 ('.' : Char)))) =
      .ok (7, 44) ∧
    currentAt
      (fillBoard (encodeLines (List.replicate 7 (List.replicate 300 ('.' : Char)))) 7 44)
      6 30 = '\n' ∧
    ¬('\n' = '.' ∨ '\n' = '#') := by
  have hall : ∀ l ∈ List.replicate 7 (List.replicate 300 ('.' : Char)),
      MarkerLine l ∧ l.length = 300 := by
    intro l hl
    rw [List.eq_of_mem_replicate hl]
    exact ⟨fun c hc => Or.inl (List.eq_of_mem_replicate hc),
      List.length_replicate 300 ('.' : Char)⟩
  refine ⟨?_, ?_, by decide⟩
  · rw [checkConfig_encode_ok 300 _ (by rw [List.length_replicate]; omega) hall]
    rw [List.length_replicate]
  · have hfill := fillBoard_currentAt
      (encodeLines (List.replicate 7 (List.replicate 300 ('.' : Char)))) 7 44 6 30
      (by omega) (by omega)
    rw [hfill]
    have hidx : 6 * (44 + 1) + 30 = 300 := by norm_num
    rw [hidx]
    have hrep : List.replicate 7 (List.replicate 300 ('.' : Char)) =
        List.replicate 300 ('.' : Char) ::
          List.replicate 6 (List.replicate 300 ('.' : Char)) := rfl
    rw [hrep]
    have henc : encodeLines (List.replicate 300 ('.' : Char) ::
          List.replicate 6 (List.replicate 300 ('.' : Char))) =
        List.replicate 300 ('.' : Char) ++
          '\n' :: encodeLines (List.replicate 6 (List.replicate 300 ('.' : Char))) := by
      rfl
    rw [henc, getD_append_ge _ _ _ _ (by rw [List.length_replicate])]
    rw [List.length_replicate, (show (300 - 300 : Nat) = 0 from rfl),
      List.getD_cons_zero]

end Gol
